import Mathlib

/-!
Verification of the Merkle multi-proof module and the chain KV store of this
repository, as a shallow embedding in Lean.

The Merkle proof verifier (`Proof::root`) and proof generator
(`Tree::get_proof`) are translated from `src/util/merkle-tree/src/proof.rs`.
The complete-binary-tree build (`Tree::new`, `Tree::build_root`) lives in a
file of the repository that is not part of the sources given here, so it is
modelled from the specification's build description.
-/

set_option maxHeartbeats 1000000
set_option linter.unusedSectionVars false

namespace Merkle

/-- Sibling index in the array-backed complete binary tree.
From the Rust `NodeIndex` trait: `((self + 1) ^ 1) - 1`. -/
def sibling (i : Nat) : Nat := ((i + 1) ^^^ 1) - 1

/-- Parent index: `(self - 1) >> 1`. -/
def parent (i : Nat) : Nat := (i - 1) / 2

/-- Left-child test: `self & 1 == 1` (odd indices are left children). -/
def isLeft (i : Nat) : Bool := i &&& 1 == 1

/-- The complete binary Merkle tree, stored as a flat node array
(root at 0, leaves at the tail of the array). -/
structure Tree (α : Type) where
  nodes : List α
deriving DecidableEq

/-- A sparse multi-leaf Merkle proof, from `proof.rs`:
partial leaves sorted ascending by index, the non-calculable sibling
nodes in consumption order, and the total leaf count. -/
structure Proof (α : Type) where
  leaves : List (Nat × α)
  lemmas : List α
  leaves_count : Nat
deriving DecidableEq

variable {α : Type} [Inhabited α]

/-- The lemma-collecting loop of `Tree::get_proof`: pop the front node
index, stop at the root, collapse a sibling pair present in the queue,
otherwise record the sibling node as a lemma, and enqueue the parent. -/
def genLoop (nodes : List α) : List Nat → List α
  | [] => []
  | i :: rest =>
    if _h : i = 0 then []
    else
      match rest with
      | j :: rt =>
        if j = sibling i then genLoop nodes (rt ++ [parent i])
        else nodes.getD (sibling i) default :: genLoop nodes ((j :: rt) ++ [parent i])
      | [] => nodes.getD (sibling i) default :: genLoop nodes [parent i]
termination_by q => (q.map (· + 1)).sum
decreasing_by
  all_goals
    simp only [List.map_append, List.sum_append, List.map_cons, List.sum_cons,
      List.map_nil, List.sum_nil]
    try unfold parent
    omega

/-- Orientation of a merge step in the verifier: the popped node is the
left input exactly when its index is a left child. -/
def stepMerge (merge : α → α → α) (i : Nat) (v s : α) : α :=
  if isLeft i then merge v s else merge s v

/-- The verification loop of `Proof::root`: pop the front `(index, value)`
pair; at the root succeed only when both queue and lemmas are exhausted;
otherwise take the sibling value from the queue front when its index
matches, else from the next lemma (failing silently drops the chain),
and enqueue the merged parent. -/
def verLoop (merge : α → α → α) : List (Nat × α) → List α → Option α
  | [], _ => none
  | (i, v) :: rest, lemmas =>
    if _h : i = 0 then
      if lemmas.isEmpty && rest.isEmpty then some v else none
    else
      match rest with
      | (j, w) :: rt =>
        if j = sibling i then
          verLoop merge (rt ++ [(parent i, stepMerge merge i v w)]) lemmas
        else
          match lemmas with
          | l :: ls => verLoop merge (((j, w) :: rt) ++ [(parent i, stepMerge merge i v l)]) ls
          | [] => verLoop merge ((j, w) :: rt) []
      | [] =>
        match lemmas with
        | l :: ls => verLoop merge [(parent i, stepMerge merge i v l)] ls
        | [] => verLoop merge [] []
termination_by q _ => (q.map (fun p => p.1 + 1)).sum
decreasing_by
  all_goals
    simp only [List.map_append, List.sum_append, List.map_cons, List.sum_cons,
      List.map_nil, List.sum_nil]
    try unfold parent
    omega

/-- `Proof::root` from `proof.rs`: fail on zero leaf count, then run the
verification loop over the leaves in descending node-index order. -/
def Proof.root (merge : α → α → α) (p : Proof α) : Option α :=
  if p.leaves_count = 0 then none
  else
    verLoop merge
      ((p.leaves.reverse).map (fun q => (p.leaves_count + q.1 - 1, q.2)))
      p.lemmas

/-- `Tree::get_proof` from `proof.rs`: reject an empty tree, empty index
list, or a last index at or beyond the leaf count; otherwise pair each
requested index with its node and collect the lemmas. -/
def Tree.get_proof (t : Tree α) (leaf_indexes : List Nat) : Option (Proof α) :=
  let leaves_count := t.nodes.length / 2 + 1
  if t.nodes.isEmpty ∨ leaf_indexes.isEmpty ∨ leaves_count ≤ leaf_indexes.getLastD 0 then
    none
  else
    some ⟨leaf_indexes.map (fun idx => (idx, t.nodes.getD (leaves_count + idx - 1) default)),
      genLoop t.nodes ((leaf_indexes.reverse).map (fun idx => leaves_count + idx - 1)),
      leaves_count⟩

/-- Modelled from the spec: the tree build of `Tree::new` (its file is not
among the given sources). Leaf `k` of `n` leaves sits at node `n - 1 + k`;
internal node `i` is `merge(nodes[2i+1], nodes[2i+2])`. This computes the
value at node index `i` directly. -/
def nodeVal (merge : α → α → α) (L : List α) (i : Nat) : α :=
  if h : L.length ≤ i + 1 then L.getD (i + 1 - L.length) default
  else merge (nodeVal merge L (2 * i + 1)) (nodeVal merge L (2 * i + 2))
termination_by 2 * L.length - i
decreasing_by
  · omega
  · omega

/-- Modelled from the spec: the flat node array of the built tree,
`2n - 1` nodes for `n` leaves. -/
def buildNodes (merge : α → α → α) (L : List α) : List α :=
  (List.range (2 * L.length - 1)).map (nodeVal merge L)

/-- Modelled from the spec: `Tree::new`, building the flat array. -/
def Tree.new (merge : α → α → α) (L : List α) : Tree α :=
  ⟨buildNodes merge L⟩

/-- Modelled from the spec: `Tree::build_root`, the root of the built
tree, or none for an empty leaf list. -/
def build_root (merge : α → α → α) (L : List α) : Option α :=
  if L.isEmpty then none else some (nodeVal merge L 0)

theorem xor_one_eq (x : Nat) : x ^^^ 1 = if x % 2 = 0 then x + 1 else x - 1 := by
  have hd : (x ^^^ 1) / 2 = x / 2 := by
    rw [Nat.xor_div_two]
    norm_num
  have hb : (x ^^^ 1) % 2 = 1 ↔ ¬(x % 2 = 1 ↔ 1 % 2 = 1) := Nat.xor_mod_two_eq_one
  rcases Nat.mod_two_eq_zero_or_one x with h | h
  · have h1 : (x ^^^ 1) % 2 = 1 := by
      rw [hb, h]
      decide
    simp only [h, if_pos]
    omega
  · have h1 : ¬((x ^^^ 1) % 2 = 1) := by
      rw [hb, h]
      decide
    have h2 : (x ^^^ 1) % 2 < 2 := Nat.mod_lt _ (by norm_num)
    rw [if_neg (by omega)]
    omega

theorem sibling_odd {i : Nat} (h : i % 2 = 1) : sibling i = i + 1 := by
  unfold sibling
  rw [xor_one_eq, if_pos (by omega)]
  omega

theorem sibling_even {i : Nat} (h : i % 2 = 0) : sibling i = i - 1 := by
  unfold sibling
  rw [xor_one_eq, if_neg (by omega)]
  omega

theorem isLeft_iff (i : Nat) : isLeft i = true ↔ i % 2 = 1 := by
  unfold isLeft
  rw [Nat.and_one_is_mod]
  simp

theorem parent_lt {i : Nat} (h : 1 ≤ i) : parent i < i := by
  unfold parent
  omega

/-- For `x ≥ 1` that shares the parent of `i ≥ 1`, `x` is `i` itself or
its sibling. -/
theorem child_of_parent {i x : Nat} (hi : 1 ≤ i) (hx : 1 ≤ x)
    (hpx : parent x = parent i) : x = i ∨ x = sibling i := by
  rcases Nat.mod_two_eq_zero_or_one i with h2 | h2
  · have hs := sibling_even h2
    unfold parent at hpx
    omega
  · have hs := sibling_odd h2
    unfold parent at hpx
    omega

/-- Invariant of the proof-generation and verification queues: indices are
strictly descending, every element lies below the node-array length, and
the parent of any element lies strictly below every smaller element. -/
def QInv (len : Nat) (q : List Nat) : Prop :=
  List.Pairwise (fun a b => a > b) q ∧
  (∀ a ∈ q, ∀ b ∈ q, b < a → parent a < b) ∧
  (∀ a ∈ q, a < len)

theorem qinv_stepB {len i : Nat} {rest : List Nat}
    (h : QInv len (i :: rest)) (hi : 1 ≤ i) (hns : sibling i ∉ rest) :
    QInv len (rest ++ [parent i]) := by
  obtain ⟨hp, hJ, hb⟩ := h
  have hip : ∀ b ∈ rest, i > b := (List.pairwise_cons.mp hp).1
  have hrp : List.Pairwise (fun a b => a > b) rest := (List.pairwise_cons.mp hp).2
  have hilen : i < len := hb i (List.mem_cons_self _ _)
  have hpla : ∀ b ∈ rest, parent i < b := fun b hbr =>
    hJ i (List.mem_cons_self _ _) b (List.mem_cons_of_mem _ hbr) (hip b hbr)
  have hkey : ∀ a ∈ rest, parent a < parent i := by
    intro a ha
    have hai : a < i := hip a ha
    have ha1 : 1 ≤ a := by
      have := hpla a ha
      omega
    have hmono : parent a ≤ parent i := by
      unfold parent
      omega
    rcases Nat.lt_or_ge (parent a) (parent i) with hlt | hge
    · exact hlt
    · exfalso
      rcases child_of_parent hi ha1 (le_antisymm hmono hge) with rfl | rfl
      · omega
      · exact hns ha
  refine ⟨?_, ?_, ?_⟩
  · rw [List.pairwise_append]
    refine ⟨hrp, List.pairwise_singleton _ _, ?_⟩
    intro a ha b hbb
    rcases List.mem_singleton.mp hbb with rfl
    exact hpla a ha
  · intro a ha b hbb hba
    rcases List.mem_append.mp ha with ha | ha <;>
      rcases List.mem_append.mp hbb with hbb | hbb
    · exact hJ a (List.mem_cons_of_mem _ ha) b (List.mem_cons_of_mem _ hbb) hba
    · rcases List.mem_singleton.mp hbb with rfl
      exact hkey a ha
    · rcases List.mem_singleton.mp ha with rfl
      exact absurd (hpla b hbb) (by omega)
    · rcases List.mem_singleton.mp ha with rfl
      rcases List.mem_singleton.mp hbb with rfl
      omega
  · intro a ha
    rcases List.mem_append.mp ha with ha | ha
    · exact hb a (List.mem_cons_of_mem _ ha)
    · rcases List.mem_singleton.mp ha with rfl
      exact lt_trans (parent_lt hi) hilen

theorem qinv_stepA {len i : Nat} {rt : List Nat}
    (h : QInv len (i :: sibling i :: rt)) (hi : 1 ≤ i) (hsl : sibling i < i) :
    QInv len (rt ++ [parent i]) := by
  obtain ⟨hp, hJ, hb⟩ := h
  have hip : ∀ b ∈ sibling i :: rt, i > b := (List.pairwise_cons.mp hp).1
  have hsp : List.Pairwise (fun a b => a > b) (sibling i :: rt) :=
    (List.pairwise_cons.mp hp).2
  have hsrt : ∀ b ∈ rt, sibling i > b := (List.pairwise_cons.mp hsp).1
  have hrp : List.Pairwise (fun a b => a > b) rt := (List.pairwise_cons.mp hsp).2
  have hilen : i < len := hb i (List.mem_cons_self _ _)
  have hpla : ∀ b ∈ rt, parent i < b := fun b hbr =>
    hJ i (List.mem_cons_self _ _) b
      (List.mem_cons_of_mem _ (List.mem_cons_of_mem _ hbr))
      (hip b (List.mem_cons_of_mem _ hbr))
  have hkey : ∀ a ∈ rt, parent a < parent i := by
    intro a ha
    have hai : a < i := hip a (List.mem_cons_of_mem _ ha)
    have ha1 : 1 ≤ a := by
      have := hpla a ha
      omega
    have hmono : parent a ≤ parent i := by
      unfold parent
      omega
    rcases Nat.lt_or_ge (parent a) (parent i) with hlt | hge
    · exact hlt
    · exfalso
      rcases child_of_parent hi ha1 (le_antisymm hmono hge) with rfl | rfl
      · omega
      · exact absurd (hsrt _ ha) (by omega)
  refine ⟨?_, ?_, ?_⟩
  · rw [List.pairwise_append]
    refine ⟨hrp, List.pairwise_singleton _ _, ?_⟩
    intro a ha b hbb
    rcases List.mem_singleton.mp hbb with rfl
    exact hpla a ha
  · intro a ha b hbb hba
    rcases List.mem_append.mp ha with ha | ha <;>
      rcases List.mem_append.mp hbb with hbb | hbb
    · exact hJ a (List.mem_cons_of_mem _ (List.mem_cons_of_mem _ ha)) b
        (List.mem_cons_of_mem _ (List.mem_cons_of_mem _ hbb)) hba
    · rcases List.mem_singleton.mp hbb with rfl
      exact hkey a ha
    · rcases List.mem_singleton.mp ha with rfl
      exact absurd (hpla b hbb) (by omega)
    · rcases List.mem_singleton.mp ha with rfl
      rcases List.mem_singleton.mp hbb with rfl
      omega
  · intro a ha
    rcases List.mem_append.mp ha with ha | ha
    · exact hb a (List.mem_cons_of_mem _ (List.mem_cons_of_mem _ ha))
    · rcases List.mem_singleton.mp ha with rfl
      exact lt_trans (parent_lt hi) hilen

/-- One merge step of the verifier applied to the true node values yields
the true parent value, given the build property of internal nodes. -/
theorem stepMerge_parent (merge : α → α → α) (nodes : List α)
    (hodd : nodes.length % 2 = 1)
    (hmrg : ∀ p : Nat, 2 * p + 2 < nodes.length →
      nodes.getD p default
        = merge (nodes.getD (2 * p + 1) default) (nodes.getD (2 * p + 2) default))
    {i : Nat} (hi : 1 ≤ i) (hilen : i < nodes.length) :
    stepMerge merge i (nodes.getD i default) (nodes.getD (sibling i) default)
      = nodes.getD (parent i) default := by
  rcases Nat.mod_two_eq_zero_or_one i with h2 | h2
  · have hs : sibling i = 2 * parent i + 1 := by
      rw [sibling_even h2]
      unfold parent
      omega
    have hieq : i = 2 * parent i + 2 := by
      unfold parent
      omega
    have hb : 2 * parent i + 2 < nodes.length := by omega
    unfold stepMerge
    rw [if_neg (by simp [isLeft_iff, h2]), hmrg (parent i) hb, ← hs, ← hieq]
  · have hs : sibling i = 2 * parent i + 2 := by
      rw [sibling_odd h2]
      unfold parent
      omega
    have hieq : i = 2 * parent i + 1 := by
      unfold parent
      omega
    have hb : 2 * parent i + 2 < nodes.length := by
      omega
    unfold stepMerge
    rw [if_pos (by simp [isLeft_iff, h2]), hmrg (parent i) hb, ← hs, ← hieq]

/-- Simulation of the verification loop against the generation loop: on any
queue satisfying the queue invariant, verifying with exactly the lemmas the
generator emits reconstructs the root node value. -/
theorem verLoop_genLoop (merge : α → α → α) (nodes : List α)
    (hodd : nodes.length % 2 = 1)
    (hmrg : ∀ p : Nat, 2 * p + 2 < nodes.length →
      nodes.getD p default
        = merge (nodes.getD (2 * p + 1) default) (nodes.getD (2 * p + 2) default)) :
    ∀ (N : Nat) (q : List Nat), (q.map (· + 1)).sum ≤ N → q ≠ [] →
      QInv nodes.length q →
      verLoop merge (q.map (fun i => (i, nodes.getD i default))) (genLoop nodes q)
        = some (nodes.getD 0 default) := by
  intro N
  induction N with
  | zero =>
    intro q hm hq _
    cases q with
    | nil => exact absurd rfl hq
    | cons i rest =>
      simp only [List.map_cons, List.sum_cons] at hm
      omega
  | succ N ih =>
    intro q hm hq hinv
    cases q with
    | nil => exact absurd rfl hq
    | cons i rest =>
      by_cases hi0 : i = 0
      · subst hi0
        have hrest : rest = [] := by
          cases rest with
          | nil => rfl
          | cons b rb =>
            have := (List.pairwise_cons.mp hinv.1).1 b (List.mem_cons_self _ _)
            omega
        subst hrest
        rw [genLoop]
        simp [verLoop]
      · have hi : 1 ≤ i := Nat.one_le_iff_ne_zero.mpr hi0
        have hilen : i < nodes.length := hinv.2.2 i (List.mem_cons_self _ _)
        have hstep := stepMerge_parent merge nodes hodd hmrg hi hilen
        cases rest with
        | nil =>
          have hm' : (([parent i] : List Nat).map (· + 1)).sum ≤ N := by
            simp only [List.map_cons, List.map_nil, List.sum_cons, List.sum_nil] at hm ⊢
            have := parent_lt hi
            omega
          have hinv' : QInv nodes.length ([] ++ [parent i]) :=
            qinv_stepB hinv hi (List.not_mem_nil _)
          rw [genLoop]
          simp only [dif_neg hi0, List.map_cons, List.map_nil]
          rw [verLoop.eq_def]
          simp only [dif_neg hi0, hstep]
          have happ := ih [parent i] hm' (by simp) (by simpa using hinv')
          simpa using happ
        | cons j rt =>
          by_cases hjs : j = sibling i
          · have hsl : sibling i < i := by
              have := (List.pairwise_cons.mp hinv.1).1 j (List.mem_cons_self _ _)
              omega
            have hm' : (((rt ++ [parent i]) : List Nat).map (· + 1)).sum ≤ N := by
              simp only [List.map_append, List.map_cons, List.map_nil, List.sum_append,
                List.sum_cons, List.sum_nil] at hm ⊢
              have := parent_lt hi
              omega
            have hinv' : QInv nodes.length (rt ++ [parent i]) := by
              subst hjs
              exact qinv_stepA hinv hi hsl
            rw [genLoop]
            simp only [dif_neg hi0, if_pos hjs, List.map_cons]
            rw [verLoop.eq_def]
            simp only [dif_neg hi0, if_pos hjs, hjs, hstep]
            have happ := ih (rt ++ [parent i]) hm' (by simp) hinv'
            simpa [List.map_append] using happ
          · have hns : sibling i ∉ j :: rt := by
              intro hmem
              have hji : j < i := (List.pairwise_cons.mp hinv.1).1 j (List.mem_cons_self _ _)
              have hallj : ∀ b ∈ rt, b < j :=
                fun b hb => (List.pairwise_cons.mp (List.pairwise_cons.mp hinv.1).2).1 b hb
              rcases Nat.mod_two_eq_zero_or_one i with h2 | h2
              · have hs := sibling_even h2
                rcases List.mem_cons.mp hmem with h | h
                · omega
                · have := hallj _ h
                  have hji2 : j ≤ i - 1 := by omega
                  omega
              · have hs := sibling_odd h2
                have hlt : sibling i < i := by
                  rcases List.mem_cons.mp hmem with h | h
                  · omega
                  · have := hallj _ h
                    omega
                omega
            have hm' : ((((j :: rt) ++ [parent i]) : List Nat).map (· + 1)).sum ≤ N := by
              simp only [List.map_append, List.map_cons, List.map_nil, List.sum_append,
                List.sum_cons, List.sum_nil] at hm ⊢
              have := parent_lt hi
              omega
            have hinv' : QInv nodes.length ((j :: rt) ++ [parent i]) :=
              qinv_stepB hinv hi hns
            rw [genLoop]
            simp only [dif_neg hi0, if_neg hjs, List.map_cons]
            rw [verLoop.eq_def]
            simp only [dif_neg hi0, if_neg hjs, hstep]
            have happ := ih ((j :: rt) ++ [parent i]) hm' (by simp) hinv'
            simpa [List.map_append] using happ

theorem buildNodes_length (merge : α → α → α) (L : List α) :
    (buildNodes merge L).length = 2 * L.length - 1 := by
  simp [buildNodes]

theorem buildNodes_getD (merge : α → α → α) (L : List α) {i : Nat}
    (h : i < 2 * L.length - 1) :
    (buildNodes merge L).getD i default = nodeVal merge L i := by
  unfold buildNodes
  rw [List.getD_eq_getElem?_getD, List.getElem?_map, List.getElem?_range h]
  rfl

theorem buildNodes_merge_prop (merge : α → α → α) (L : List α) :
    ∀ p : Nat, 2 * p + 2 < (buildNodes merge L).length →
      (buildNodes merge L).getD p default
        = merge ((buildNodes merge L).getD (2 * p + 1) default)
            ((buildNodes merge L).getD (2 * p + 2) default) := by
  intro p hp
  rw [buildNodes_length] at hp
  rw [buildNodes_getD _ _ (by omega), buildNodes_getD _ _ (by omega),
    buildNodes_getD _ _ (by omega)]
  rw [nodeVal]
  rw [dif_neg (by omega)]

/-- The leaves of the built node array are the original leaf list. -/
theorem buildNodes_leaf (merge : α → α → α) (L : List α) {k : Nat}
    (hk : k < L.length) :
    (buildNodes merge L).getD (L.length + k - 1) default = L.getD k default := by
  rw [buildNodes_getD _ _ (by omega)]
  rw [nodeVal, dif_pos (by omega)]
  congr 1
  omega

/-- The initial queue of a proof over strictly ascending in-range indices
satisfies the queue invariant. -/
theorem qinv_init {n : Nat} (hn : 1 ≤ n) {I : List Nat}
    (hs : List.Pairwise (fun a b => a < b) I) (hb : ∀ x ∈ I, x < n) :
    QInv (2 * n - 1) ((I.reverse).map (fun idx => n + idx - 1)) := by
  refine ⟨?_, ?_, ?_⟩
  · rw [List.pairwise_map, List.pairwise_reverse]
    exact hs.imp (by omega)
  · intro a ha b hbb hba
    simp only [List.mem_map, List.mem_reverse] at ha hbb
    obtain ⟨x, hx, rfl⟩ := ha
    obtain ⟨y, hy, rfl⟩ := hbb
    have hxn := hb x hx
    have hyn := hb y hy
    unfold parent
    omega
  · intro a ha
    simp only [List.mem_map, List.mem_reverse] at ha
    obtain ⟨x, hx, rfl⟩ := ha
    have := hb x hx
    omega

/-- C1: for every non-empty leaf list `L` and non-empty strictly ascending
list of indices `I` with every element below the leaf count, the proof
produced by `get_proof` verifies via `Proof.root` back to the same root
that building the tree over `L` yields, for any merge function. -/
theorem get_proof_root_eq_build_root (merge : α → α → α) (L : List α) (I : List Nat)
    (hL : L ≠ []) (hI : I ≠ []) (hs : List.Pairwise (fun a b => a < b) I)
    (hb : ∀ x ∈ I, x < L.length) :
    ((Tree.new merge L).get_proof I).bind (Proof.root merge) = build_root merge L := by
  have hn : 1 ≤ L.length := List.length_pos.mpr hL
  have hlen : (buildNodes merge L).length = 2 * L.length - 1 := buildNodes_length merge L
  have hcount : (buildNodes merge L).length / 2 + 1 = L.length := by
    rw [hlen]
    omega
  have hlast_mem : I.getLastD 0 ∈ I := by
    rw [List.getLastD_eq_getLast?, List.getLast?_eq_getLast I hI]
    exact List.getLast_mem hI
  have hlast : I.getLastD 0 < L.length := hb _ hlast_mem
  have hguard : ¬((buildNodes merge L).isEmpty = true ∨ I.isEmpty = true ∨
      (buildNodes merge L).length / 2 + 1 ≤ I.getLastD 0) := by
    rw [hcount]
    simp only [not_or, List.isEmpty_iff]
    refine ⟨?_, hI, by omega⟩
    intro hnil
    rw [hnil] at hlen
    simp at hlen
    omega
  rw [Tree.new, Tree.get_proof]
  simp only [if_neg hguard, Option.some_bind]
  rw [Proof.root]
  simp only [if_neg (by omega : ¬(buildNodes merge L).length / 2 + 1 = 0)]
  have hq : ((I.map (fun idx => (idx,
        (buildNodes merge L).getD ((buildNodes merge L).length / 2 + 1 + idx - 1) default))).reverse).map
        (fun q => ((buildNodes merge L).length / 2 + 1 + q.1 - 1, q.2))
      = ((I.reverse).map (fun idx => (buildNodes merge L).length / 2 + 1 + idx - 1)).map
        (fun i => (i, (buildNodes merge L).getD i default)) := by
    rw [← List.map_reverse, List.map_map, List.map_map]
    rfl
  rw [hq, hcount]
  have hodd : (buildNodes merge L).length % 2 = 1 := by
    rw [hlen]
    omega
  have hinv0 : QInv (buildNodes merge L).length
      ((I.reverse).map (fun idx => L.length + idx - 1)) := by
    rw [hlen]
    exact qinv_init hn hs hb
  have hres := verLoop_genLoop merge (buildNodes merge L) hodd
    (buildNodes_merge_prop merge L)
    ((((I.reverse).map (fun idx => L.length + idx - 1)).map (· + 1)).sum)
    ((I.reverse).map (fun idx => L.length + idx - 1)) le_rfl
    (by
      simp only [ne_eq, List.map_eq_nil_iff, List.reverse_eq_nil_iff]
      exact hI)
    hinv0
  rw [hres, build_root, if_neg (by rw [List.isEmpty_iff]; exact hL)]
  rw [buildNodes_getD _ _ (by omega)]

/-- Concrete instantiation of the C1 theorem at the repository test data. -/
theorem get_proof_root_eq_build_root_witness :
    (([2, 3, 5, 7, 11, 13] : List Int) ≠ [] ∧ ([0, 5] : List Nat) ≠ [] ∧
      List.Pairwise (fun a b : Nat => a < b) [0, 5] ∧
      ∀ x ∈ ([0, 5] : List Nat), x < ([2, 3, 5, 7, 11, 13] : List Int).length) ∧
    ((Tree.new (fun l r : Int => r - l) [2, 3, 5, 7, 11, 13]).get_proof [0, 5]).bind
        (Proof.root (fun l r : Int => r - l))
      = build_root (fun l r : Int => r - l) [2, 3, 5, 7, 11, 13] :=
  ⟨⟨by decide, by decide, by decide, by decide⟩,
    get_proof_root_eq_build_root (fun l r : Int => r - l) [2, 3, 5, 7, 11, 13] [0, 5]
      (by decide) (by decide) (by decide) (by decide)⟩

/-- C4 counterexample: a proof whose second leaf carries index 1 at
`leaves_count` 1 (an out-of-range leaf index, and a leaf whose needed
sibling has no lemma left) still verifies to `some 5`: the bogus chain is
silently dropped and the remaining chain reaches index 0 with the queue
and lemmas exhausted. -/
theorem root_some_despite_bad_leaf_index :
    ((1, (7 : Int)) ∈ (Proof.mk [((0 : Nat), (5 : Int)), (1, 7)] [] 1).leaves ∧
      (Proof.mk [((0 : Nat), (5 : Int)), (1, 7)] [] 1).leaves_count ≤ 1) ∧
    Proof.root (fun l r : Int => r - l) (Proof.mk [(0, 5), (1, 7)] [] 1) = some 5 := by
  refine ⟨⟨by decide, by decide⟩, ?_⟩
  simp [Proof.root, verLoop, sibling, parent, stepMerge, isLeft]

/-- C4 amended: `root` returns none whenever `leaves_count` is zero, and
whenever the loop pops index 0 while lemmas remain unconsumed or other
queue entries remain; an out-of-range leaf index or a missing lemma does
not by itself force none. -/
theorem root_failure_amended (merge : α → α → α) :
    (∀ p : Proof α, p.leaves_count = 0 → Proof.root merge p = none) ∧
    (∀ (v : α) (qt : List (Nat × α)) (lems : List α), (lems ≠ [] ∨ qt ≠ []) →
      verLoop merge ((0, v) :: qt) lems = none) := by
  constructor
  · intro p hp
    rw [Proof.root, if_pos hp]
  · intro v qt lems h
    rcases h with h | h
    · obtain ⟨a, as, rfl⟩ : ∃ a as, lems = a :: as := by
        cases lems with
        | nil => exact absurd rfl h
        | cons a as => exact ⟨a, as, rfl⟩
      rw [verLoop.eq_def]
      simp
    · obtain ⟨b, bs, rfl⟩ : ∃ b bs, qt = b :: bs := by
        cases qt with
        | nil => exact absurd rfl h
        | cons b bs => exact ⟨b, bs, rfl⟩
      rw [verLoop.eq_def]
      simp

/-- Concrete instantiation of the amended C4 theorem. -/
theorem root_failure_amended_witness :
    ((Proof.mk ([] : List (Nat × Int)) [] 0).leaves_count = 0 ∧
      Proof.root (fun l r : Int => r - l) (Proof.mk [] [] 0) = none) ∧
    ((([1] : List Int) ≠ [] ∨ ([] : List (Nat × Int)) ≠ []) ∧
      verLoop (fun l r : Int => r - l) [((0 : Nat), (1 : Int))] [1] = none) :=
  ⟨⟨rfl, (root_failure_amended (fun l r : Int => r - l)).1 _ rfl⟩,
    ⟨Or.inl (by decide),
      (root_failure_amended (fun l r : Int => r - l)).2 1 [] [1] (Or.inl (by decide))⟩⟩

/-- C9: a proof with an empty leaves list and positive leaves_count yields
no root: the verification queue starts empty, so the loop never runs. -/
theorem root_empty_leaves_none (merge : α → α → α) (lems : List α) (c : Nat)
    (hc : 0 < c) : Proof.root merge (Proof.mk [] lems c) = none := by
  rw [Proof.root]
  have hproj : (Proof.mk ([] : List (Nat × α)) lems c).leaves_count = c := rfl
  rw [hproj, if_neg (by omega)]
  simp [verLoop]

/-- Concrete instantiation of the C9 theorem. -/
theorem root_empty_leaves_none_witness :
    0 < 3 ∧ Proof.root (fun l r : Int => r - l) (Proof.mk [] [5] 3) = none :=
  ⟨by decide, root_empty_leaves_none (fun l r : Int => r - l) [5] 3 (by decide)⟩

/-- C7: over a sorted index list, `get_proof` returns none exactly when the
tree is empty, the index list is empty, or the last index reaches the leaf
count; otherwise the proof pairs each index with node `n - 1 + idx` and
carries leaf count `n`. -/
theorem get_proof_spec (t : Tree α) (I : List Nat)
    (_hs : List.Pairwise (fun a b : Nat => a ≤ b) I) :
    (t.get_proof I = none ↔
      (t.nodes = [] ∨ I = [] ∨ t.nodes.length / 2 + 1 ≤ I.getLastD 0)) ∧
    (∀ pr, t.get_proof I = some pr →
      pr.leaves = I.map (fun idx =>
        (idx, t.nodes.getD (t.nodes.length / 2 + 1 - 1 + idx) default)) ∧
      pr.leaves_count = t.nodes.length / 2 + 1) := by
  have hfun : ∀ idx : Nat,
      t.nodes.length / 2 + 1 + idx - 1 = t.nodes.length / 2 + 1 - 1 + idx := by
    intro idx
    omega
  constructor
  · rw [Tree.get_proof]
    by_cases hg : t.nodes.isEmpty = true ∨ I.isEmpty = true ∨
        t.nodes.length / 2 + 1 ≤ I.getLastD 0
    · rw [if_pos hg]
      simpa [List.isEmpty_iff] using hg
    · rw [if_neg hg]
      simpa [List.isEmpty_iff] using hg
  · intro pr hpr
    rw [Tree.get_proof] at hpr
    by_cases hg : t.nodes.isEmpty = true ∨ I.isEmpty = true ∨
        t.nodes.length / 2 + 1 ≤ I.getLastD 0
    · rw [if_pos hg] at hpr
      exact absurd hpr (by simp)
    · rw [if_neg hg] at hpr
      have := Option.some.inj hpr
      subst this
      refine ⟨?_, rfl⟩
      exact List.map_congr_left (fun idx _ => by rw [hfun idx])

/-- Concrete instantiation of the C7 theorem. -/
theorem get_proof_spec_witness :
    List.Pairwise (fun a b : Nat => a ≤ b) [0, 5] ∧
    (((Tree.new (fun l r : Int => r - l) [2, 3, 5, 7, 11, 13]).get_proof [0, 5] = none ↔
      ((Tree.new (fun l r : Int => r - l) [2, 3, 5, 7, 11, 13]).nodes = [] ∨
        ([0, 5] : List Nat) = [] ∨
        (Tree.new (fun l r : Int => r - l) [2, 3, 5, 7, 11, 13]).nodes.length / 2 + 1
          ≤ ([0, 5] : List Nat).getLastD 0)) ∧
    (∀ pr, (Tree.new (fun l r : Int => r - l) [2, 3, 5, 7, 11, 13]).get_proof [0, 5]
        = some pr →
      pr.leaves = ([0, 5] : List Nat).map (fun idx =>
        (idx, (Tree.new (fun l r : Int => r - l) [2, 3, 5, 7, 11, 13]).nodes.getD
          ((Tree.new (fun l r : Int => r - l) [2, 3, 5, 7, 11, 13]).nodes.length / 2 + 1
            - 1 + idx) default)) ∧
      pr.leaves_count =
        (Tree.new (fun l r : Int => r - l) [2, 3, 5, 7, 11, 13]).nodes.length / 2 + 1)) :=
  ⟨by decide,
    get_proof_spec (Tree.new (fun l r : Int => r - l) [2, 3, 5, 7, 11, 13]) [0, 5]
      (by decide)⟩

/-- C8: the repository's six-leaf example with the dummy merge
`merge(l, r) = r - l`: the proof of leaves 0 and 5, its verified root, and
the directly built root. -/
theorem two_of_six_proof_spec :
    ((Tree.new (fun l r : Int => r - l) [2, 3, 5, 7, 11, 13]).get_proof [0, 5]
        = some (Proof.mk [(0, 2), (5, 13)] [11, 3, 2] 6)) ∧
    (((Tree.new (fun l r : Int => r - l) [2, 3, 5, 7, 11, 13]).get_proof [0, 5]).bind
        (Proof.root (fun l r : Int => r - l)) = some 1) ∧
    build_root (fun l r : Int => r - l) [2, 3, 5, 7, 11, 13] = some 1 := by
  have h1 : (Tree.new (fun l r : Int => r - l) [2, 3, 5, 7, 11, 13]).get_proof [0, 5]
      = some (Proof.mk [(0, 2), (5, 13)] [11, 3, 2] 6) := by
    simp [Tree.new, Tree.get_proof, buildNodes, nodeVal, genLoop, sibling, parent,
      List.range_succ]
  refine ⟨h1, ?_, ?_⟩
  · rw [h1, Option.some_bind]
    simp [Proof.root, verLoop, sibling, parent, stepMerge, isLeft]
  · simp [build_root, nodeVal]

end Merkle

namespace Store

/-- Hash values (32-byte identities), modelled as byte lists. -/
abbrev H256 := List Nat

/-- The columns of the chain KV store. -/
inductive Col
  | blockHeader
  | blockBody
  | blockUncle
  | blockProposalIds
  | blockTransactionIds
  | blockTransactionAddresses
  | extCol
  | outputRoot
  | txMeta
deriving DecidableEq

/-- A side-table entry of the flat serializer: offset and length. -/
structure Address where
  offset : Nat
  length : Nat
deriving DecidableEq

/-- Opaque transaction payload. -/
abbrev Transaction := Nat

abbrev UncleBlock := Nat

abbrev ProposalShortId := Nat

abbrev BlockExt := Nat

structure Header where
  parent_hash : H256
  number : Nat
  timestamp : Nat
  difficulty : Nat
deriving DecidableEq

/-- A header together with its hash, as rebuilt by `get_header`. -/
structure IndexedHeader where
  header : Header
  hash : H256
deriving DecidableEq

def IndexedHeader.number (h : IndexedHeader) : Nat := h.header.number

def IndexedHeader.parent_hash (h : IndexedHeader) : H256 := h.header.parent_hash

/-- A transaction together with its identity hash. -/
structure IndexedTransaction where
  tx : Transaction
  hash : H256
deriving DecidableEq

structure IndexedBlock where
  header : IndexedHeader
  commit_transactions : List IndexedTransaction
  uncles : List UncleBlock
  proposal_transactions : List ProposalShortId
deriving DecidableEq

/-- Block identity is the hash of its header. -/
def IndexedBlock.hash (b : IndexedBlock) : H256 := b.header.hash

/-- Modelled from the spec: stored column values. The canonical encodings
(bincode, not among the given sources) are opaque, injective and
round-tripping, so they are modelled as a tagged union; the output-root
column stores raw untagged bytes. -/
inductive SV
  | header (h : Header)
  | hashes (hs : List H256)
  | uncles (us : List UncleBlock)
  | proposals (ps : List ProposalShortId)
  | body (txs : List Transaction)
  | addresses (ads : List Address)
  | extv (e : BlockExt)
  | raw (bytes : List Nat)
deriving DecidableEq

def deserializeHeader : SV → Option Header
  | .header h => some h
  | _ => none

def deserializeHashes : SV → Option (List H256)
  | .hashes hs => some hs
  | _ => none

def deserializeUncles : SV → Option (List UncleBlock)
  | .uncles us => some us
  | _ => none

def deserializeProposals : SV → Option (List ProposalShortId)
  | .proposals ps => some ps
  | _ => none

def deserializeAddresses : SV → Option (List Address)
  | .addresses ads => some ads
  | _ => none

def deserializeExt : SV → Option BlockExt
  | .extv e => some e
  | _ => none

/-- A batch of column insertions, committed atomically. -/
abbrev Batch := List (Col × H256 × SV)

/-- The KV engine state: an ordered map per column. -/
abbrev DB := Col → H256 → Option SV

def batchInsert (b : Batch) (c : Col) (k : H256) (v : SV) : Batch :=
  b ++ [(c, k, v)]

/-- Committing a batch: apply its insertions in order. -/
def applyBatch (db : DB) (b : Batch) : DB :=
  b.foldl (fun d e => fun c k => if c = e.1 ∧ k = e.2.1 then some e.2.2 else d c k) db

/-- Modelled from the spec: the flat serializer packs the records into one
blob (kept as the record list under the `body` tag) and emits one address
per record in input order. -/
def flat_serialize (txs : List Transaction) : SV × List Address :=
  (SV.body txs, (List.range txs.length).map (fun i => Address.mk i 1))

/-- Modelled from the spec: flat deserialization slices the blob at each
address. -/
def flat_deserialize (sv : SV) (ads : List Address) : Option (List Transaction) :=
  match sv with
  | .body txs => some (ads.map (fun a => txs.getD a.offset 0))
  | _ => none

def get (db : DB) (c : Col) (k : H256) : Option SV := db c k

/-- `get_header` from `store.rs`: read the header column and reattach the
key as the hash. -/
def get_header (db : DB) (h : H256) : Option IndexedHeader :=
  (get db Col.blockHeader h).bind
    (fun raw => (deserializeHeader raw).map (fun hd => IndexedHeader.mk hd h))

def get_block_uncles (db : DB) (h : H256) : Option (List UncleBlock) :=
  (get db Col.blockUncle h).bind deserializeUncles

def get_block_proposal_txs_ids (db : DB) (h : H256) : Option (List ProposalShortId) :=
  (get db Col.blockProposalIds h).bind deserializeProposals

/-- `get_block_body` from `store.rs`: deserialize the address table, flat
deserialize the body blob, then zip with the stored transaction ids. -/
def get_block_body (db : DB) (h : H256) : Option (List IndexedTransaction) :=
  (get db Col.blockTransactionAddresses h).bind fun sa =>
    (deserializeAddresses sa).bind fun ads =>
      (get db Col.blockBody h).bind fun sb =>
        (flat_deserialize sb ads).bind fun txs =>
          (get db Col.blockTransactionIds h).bind fun si =>
            (deserializeHashes si).map fun ids =>
              (txs.zip ids).map fun p => IndexedTransaction.mk p.1 p.2

/-- `get_block` from `store.rs`: compose header, body, uncles and proposal
ids. -/
def get_block (db : DB) (h : H256) : Option IndexedBlock :=
  (get_header db h).bind fun header =>
    (get_block_body db h).bind fun txs =>
      (get_block_uncles db h).bind fun us =>
        (get_block_proposal_txs_ids db h).bind fun ps =>
          some (IndexedBlock.mk header txs us ps)

def get_block_ext (db : DB) (h : H256) : Option BlockExt :=
  (get db Col.extCol h).bind deserializeExt

/-- `get_output_root` from `store.rs`: `H256::from` of the raw stored
bytes; modelled from the spec as taking exactly the first 32 bytes. -/
def get_output_root (db : DB) (h : H256) : Option H256 :=
  (get db Col.outputRoot h).bind fun sv =>
    match sv with
    | .raw bs => some (bs.take 32)
    | _ => none

/-- `insert_block` from `store.rs`: header, transaction ids, uncles, flat
body, proposal ids and address table, all keyed by the block hash, in the
order of the source. -/
def insert_block (b : IndexedBlock) (batch : Batch) : Batch :=
  let hash := b.hash
  let txs_ids := b.commit_transactions.map (fun tx => tx.hash)
  let b1 := batchInsert batch Col.blockHeader hash (SV.header b.header.header)
  let fs := flat_serialize (b.commit_transactions.map (fun tx => tx.tx))
  let b2 := batchInsert b1 Col.blockTransactionIds hash (SV.hashes txs_ids)
  let b3 := batchInsert b2 Col.blockUncle hash (SV.uncles b.uncles)
  let b4 := batchInsert b3 Col.blockBody hash fs.1
  let b5 := batchInsert b4 Col.blockProposalIds hash (SV.proposals b.proposal_transactions)
  batchInsert b5 Col.blockTransactionAddresses hash (SV.addresses fs.2)

def insert_block_ext (batch : Batch) (h : H256) (e : BlockExt) : Batch :=
  batchInsert batch Col.extCol h (SV.extv e)

def insert_output_root (batch : Batch) (h r : H256) : Batch :=
  batchInsert batch Col.outputRoot h (SV.raw r)

/-- The header chain iterator of `store.rs`: yield the current head, then
move to the stored parent while the height is positive. The iterator is
modelled with a fuel bound on the number of yields; any fuel above the
head height yields the entire chain. -/
def headers_iter (db : DB) : Nat → Option IndexedHeader → List IndexedHeader
  | 0, _ => []
  | _, none => []
  | fuel + 1, some h =>
    h :: headers_iter db fuel (if 0 < h.number then get_header db h.parent_hash else none)

structure OutPoint where
  hash : H256
  index : Nat
deriving DecidableEq

/-- Modelled from the spec: the per-transaction bitmap of live outputs
(`core::transaction_meta`, not among the given sources); bit i true means
output i unspent. -/
abbrev TransactionMeta := List Bool

/-- Modelled from the spec: `TransactionMeta::new(len)` starts with all
bits set. -/
def TransactionMeta.new (n : Nat) : TransactionMeta := List.replicate n true

/-- Modelled from the spec: the authenticated map state of the persistent
AVL tree, abstracted to its key-to-bitmap binding (newest binding first). -/
abbrev AvlM := List (H256 × TransactionMeta)

/-- Modelled from the spec: point lookup at the current state. -/
def avlLookup : AvlM → H256 → Option TransactionMeta
  | [], _ => none
  | e :: t, k => if e.1 = k then some e.2 else avlLookup t k

/-- Modelled from the spec: `AvlTree::update(key, output_index)` clears
bit `output_index` at `key`; the failure result (`false` in the source)
is `none` here, returned when the key is absent or the bit is already
clear. -/
def avlUpdate : AvlM → H256 → Nat → Option AvlM
  | [], _, _ => none
  | e :: t, k, idx =>
    if e.1 = k then
      if e.2.getD idx false then some ((k, e.2.set idx false) :: t) else none
    else (avlUpdate t k idx).map (fun t2 => e :: t2)

/-- Modelled from the spec: `AvlTree::insert(key, value)` returns the
previous binding if any, together with the new state. -/
def avlInsert (t : AvlM) (k : H256) (v : TransactionMeta) :
    Option TransactionMeta × AvlM :=
  (avlLookup t k, (k, v) :: t)

/-- Modelled from the spec: the commit serializes the tree nodes into the
batch under the transaction-meta column keyed by node hash. -/
def metaBytes (m : TransactionMeta) : List Nat :=
  m.map (fun b => if b then 1 else 0)

def commitEntries (t : AvlM) : Batch :=
  t.map (fun e => (Col.txMeta, e.1, SV.raw (metaBytes e.2)))

/-- Modelled from the spec: the root hash returned by the commit, a
canonical encoding of the committed state. -/
def commitHash (t : AvlM) : H256 :=
  t.foldr (fun e acc => e.1 ++ metaBytes e.2 ++ acc) []

/-- The inner input loop of `update_transaction_meta`: apply each spend in
order, failing on the first failed update. -/
def processInputs : AvlM → List OutPoint → Option AvlM
  | t, [] => some t
  | t, op :: rest =>
    match avlUpdate t op.hash op.index with
    | none => none
    | some t2 => processInputs t2 rest

/-- One delta of `update_transaction_meta`: all input spends first, then,
when outputs exist, insert the new meta under the first output's hash,
failing if a previous binding existed. -/
def deltaStep (t : AvlM) (d : List OutPoint × List OutPoint) : Option AvlM :=
  match processInputs t d.1 with
  | none => none
  | some t2 =>
    match d.2 with
    | [] => some t2
    | o :: os =>
      let r := avlInsert t2 o.hash (TransactionMeta.new (o :: os).length)
      match r.1 with
      | some _ => none
      | none => some r.2

/-- The delta loop of `update_transaction_meta`, in order. -/
def processCells : AvlM → List (List OutPoint × List OutPoint) → Option AvlM
  | t, [] => some t
  | t, d :: rest =>
    match deltaStep t d with
    | none => none
    | some t2 => processCells t2 rest

/-- `update_transaction_meta` from `store.rs`, over the modelled tree
state: process the deltas; on failure return none with the batch
untouched, otherwise commit into the batch and return the new root. -/
def update_transaction_meta (t0 : AvlM) (batch : Batch)
    (cells : List (List OutPoint × List OutPoint)) : Option H256 × Batch :=
  match processCells t0 cells with
  | none => (none, batch)
  | some t => (some (commitHash t), batch ++ commitEntries t)

theorem applyBatch_snoc (db : DB) (bt : Batch) (e : Col × H256 × SV) :
    applyBatch db (bt ++ [e]) =
      fun c k => if c = e.1 ∧ k = e.2.1 then some e.2.2 else applyBatch db bt c k := by
  simp [applyBatch, List.foldl_append]

/-- C5: an output root committed via insert_output_root reads back, and any
raw value stored under the output-root column reads back as exactly its
first 32 bytes. -/
theorem output_root_roundtrip_and_first_32 :
    (∀ (db : DB) (batch : Batch) (h r : H256), r.length = 32 →
      get_output_root (applyBatch db (insert_output_root batch h r)) h = some r) ∧
    (∀ (db : DB) (h : H256) (bs : List Nat),
      get db Col.outputRoot h = some (SV.raw bs) →
      get_output_root db h = some (bs.take 32)) := by
  constructor
  · intro db batch h r hr
    unfold get_output_root get insert_output_root batchInsert
    rw [applyBatch_snoc]
    simp only [and_self, if_pos, Option.some_bind]
    rw [← hr, List.take_length]
  · intro db h bs hget
    unfold get_output_root
    rw [hget]
    rfl

/-- Concrete instantiation of the C5 theorem. -/
theorem output_root_roundtrip_and_first_32_witness :
    ((List.range 32).length = 32 ∧
      get_output_root (applyBatch (fun _ _ => none)
        (insert_output_root [] [1] (List.range 32))) [1] = some (List.range 32)) ∧
    (get (fun c k => if c = Col.outputRoot ∧ k = [1] then some (SV.raw [2, 3]) else none)
        Col.outputRoot [1] = some (SV.raw [2, 3]) ∧
      get_output_root
        (fun c k => if c = Col.outputRoot ∧ k = [1] then some (SV.raw [2, 3]) else none)
        [1] = some (([2, 3] : List Nat).take 32)) :=
  ⟨⟨by decide,
      output_root_roundtrip_and_first_32.1 (fun _ _ => none) [] [1] (List.range 32)
        (by decide)⟩,
    ⟨by decide,
      output_root_roundtrip_and_first_32.2 _ [1] [2, 3] (by decide)⟩⟩

/-- C10: whenever update_transaction_meta returns none it returns before
committing, leaving the batch exactly as passed in. -/
theorem update_transaction_meta_none_batch (t0 : AvlM) (batch : Batch)
    (cells : List (List OutPoint × List OutPoint))
    (h : (update_transaction_meta t0 batch cells).1 = none) :
    (update_transaction_meta t0 batch cells).2 = batch := by
  unfold update_transaction_meta at h ⊢
  cases hp : processCells t0 cells with
  | none => rfl
  | some t =>
    rw [hp] at h
    simp at h

/-- Concrete instantiation of the C10 theorem. -/
theorem update_transaction_meta_none_batch_witness :
    (update_transaction_meta [] [(Col.extCol, [9], SV.raw [7])]
        [([OutPoint.mk [1] 0], [])]).1 = none ∧
    (update_transaction_meta [] [(Col.extCol, [9], SV.raw [7])]
        [([OutPoint.mk [1] 0], [])]).2 = [(Col.extCol, [9], SV.raw [7])] :=
  ⟨by decide, update_transaction_meta_none_batch _ _ _ (by decide)⟩

theorem insert_block_reads (db : DB) (batch : Batch) (b : IndexedBlock) :
    get (applyBatch db (insert_block b batch)) Col.blockHeader b.hash
        = some (SV.header b.header.header) ∧
    get (applyBatch db (insert_block b batch)) Col.blockTransactionIds b.hash
        = some (SV.hashes (b.commit_transactions.map (fun tx => tx.hash))) ∧
    get (applyBatch db (insert_block b batch)) Col.blockUncle b.hash
        = some (SV.uncles b.uncles) ∧
    get (applyBatch db (insert_block b batch)) Col.blockBody b.hash
        = some (SV.body (b.commit_transactions.map (fun tx => tx.tx))) ∧
    get (applyBatch db (insert_block b batch)) Col.blockProposalIds b.hash
        = some (SV.proposals b.proposal_transactions) ∧
    get (applyBatch db (insert_block b batch)) Col.blockTransactionAddresses b.hash
        = some (SV.addresses
            ((List.range (b.commit_transactions.map (fun tx => tx.tx)).length).map
              (fun i => Address.mk i 1))) := by
  simp only [insert_block, batchInsert, flat_serialize, get]
  simp only [applyBatch, List.foldl_append, List.foldl_cons, List.foldl_nil]
  simp

theorem range_map_getD (txs : List Transaction) :
    ((List.range txs.length).map (fun i => Address.mk i 1)).map
      (fun a => txs.getD a.offset 0) = txs := by
  rw [List.map_map]
  apply List.ext_getElem
  · simp
  · intro i h1 h2
    simp [List.getD_eq_getElem?_getD, List.getElem?_eq_getElem h2]

theorem zip_map_eta (cts : List IndexedTransaction) :
    ((cts.map (fun tx => tx.tx)).zip (cts.map (fun tx => tx.hash))).map
      (fun p => IndexedTransaction.mk p.1 p.2) = cts := by
  induction cts with
  | nil => rfl
  | cons a t ih => simp [ih]

/-- C3: a block committed via insert_block reads back equal to itself via
get_block, including transaction order and reattached identities. -/
theorem insert_block_get_block (db : DB) (batch : Batch) (b : IndexedBlock) :
    get_block (applyBatch db (insert_block b batch)) b.hash = some b := by
  obtain ⟨h1, h2, h3, h4, h5, h6⟩ := insert_block_reads db batch b
  rw [get_block, get_header, h1]
  simp only [deserializeHeader, Option.some_bind, Option.map_some']
  rw [get_block_body, h6]
  simp only [deserializeAddresses, Option.some_bind]
  rw [h4]
  simp only [flat_deserialize, Option.some_bind]
  rw [h2]
  simp only [deserializeHashes, Option.some_bind, Option.map_some']
  rw [range_map_getD, zip_map_eta]
  rw [get_block_uncles, h3]
  simp only [deserializeUncles, Option.some_bind]
  rw [get_block_proposal_txs_ids, h5]
  simp only [deserializeProposals, Option.some_bind]
  rfl

theorem headers_iter_aux (db : DB)
    (hclosed : ∀ (k : H256) (h : IndexedHeader), get_header db k = some h →
      0 < h.number → ∃ p, get_header db h.parent_hash = some p ∧
        p.number + 1 = h.number) :
    ∀ (n : Nat) (h : IndexedHeader) (fuel : Nat), h.number = n → n < fuel →
      (0 < h.number → ∃ p, get_header db h.parent_hash = some p ∧
        p.number + 1 = h.number) →
      (headers_iter db fuel (some h)).length = n + 1 ∧
      (headers_iter db fuel (some h)).head? = some h ∧
      ∃ g, (headers_iter db fuel (some h)).getLast? = some g ∧ g.number = 0 := by
  intro n
  induction n with
  | zero =>
    intro h fuel h0 hf _
    obtain ⟨f, rfl⟩ : ∃ f, fuel = f + 1 := ⟨fuel - 1, by omega⟩
    rw [headers_iter, if_neg (by omega)]
    have hnil : headers_iter db f none = [] := by
      cases f with
      | zero => rw [headers_iter]
      | succ f2 =>
        rw [headers_iter]
        omega
    rw [hnil]
    exact ⟨rfl, rfl, h, rfl, h0⟩
  | succ n ih =>
    intro h fuel h0 hf hpar
    obtain ⟨f, rfl⟩ : ∃ f, fuel = f + 1 := ⟨fuel - 1, by omega⟩
    obtain ⟨p, hp, hpn⟩ := hpar (by omega)
    rw [headers_iter, if_pos (by omega), hp]
    obtain ⟨hlen, hhd, g, hg, hg0⟩ :=
      ih p f (by omega) (by omega) (fun hpos => hclosed _ p hp hpos)
    refine ⟨by rw [List.length_cons, hlen], rfl, g, ?_, hg0⟩
    cases hl : headers_iter db f (some p) with
    | nil =>
      rw [hl] at hlen
      simp at hlen
    | cons a t =>
      rw [hl] at hg
      rw [List.getLast?_cons_cons]
      exact hg

/-- C6: when every stored header of positive height has its parent stored
one lower (and so does the head), the header iterator yields exactly
head.number + 1 headers, starting at the head and ending at height 0. -/
theorem headers_iter_spec (db : DB) (head : IndexedHeader)
    (hclosed : ∀ (k : H256) (h : IndexedHeader), get_header db k = some h →
      0 < h.number → ∃ p, get_header db h.parent_hash = some p ∧
        p.number + 1 = h.number)
    (hhead : 0 < head.number → ∃ p, get_header db head.parent_hash = some p ∧
      p.number + 1 = head.number) :
    ∀ fuel, head.number < fuel →
      (headers_iter db fuel (some head)).length = head.number + 1 ∧
      (headers_iter db fuel (some head)).head? = some head ∧
      ∃ g, (headers_iter db fuel (some head)).getLast? = some g ∧ g.number = 0 :=
  fun fuel hf => headers_iter_aux db hclosed head.number head fuel rfl hf hhead

/-- Concrete instantiation of the C6 theorem at a genesis-only chain over
the empty store. -/
theorem headers_iter_spec_witness :
    (∀ (k : H256) (h : IndexedHeader), get_header (fun _ _ => none) k = some h →
      0 < h.number → ∃ p, get_header (fun _ _ => none) h.parent_hash = some p ∧
        p.number + 1 = h.number) ∧
    ((0 < (IndexedHeader.mk (Header.mk [] 0 0 0) []).number →
      ∃ p, get_header (fun _ _ => none)
          (IndexedHeader.mk (Header.mk [] 0 0 0) []).parent_hash = some p ∧
        p.number + 1 = (IndexedHeader.mk (Header.mk [] 0 0 0) []).number) ∧
    ((IndexedHeader.mk (Header.mk [] 0 0 0) []).number < 1 ∧
      ((headers_iter (fun _ _ => none) 1
          (some (IndexedHeader.mk (Header.mk [] 0 0 0) []))).length
        = (IndexedHeader.mk (Header.mk [] 0 0 0) []).number + 1 ∧
      (headers_iter (fun _ _ => none) 1
          (some (IndexedHeader.mk (Header.mk [] 0 0 0) []))).head?
        = some (IndexedHeader.mk (Header.mk [] 0 0 0) []) ∧
      ∃ g, (headers_iter (fun _ _ => none) 1
          (some (IndexedHeader.mk (Header.mk [] 0 0 0) []))).getLast? = some g ∧
        g.number = 0))) := by
  have hclosed : ∀ (k : H256) (h : IndexedHeader),
      get_header (fun _ _ => none) k = some h → 0 < h.number →
      ∃ p, get_header (fun _ _ => none) h.parent_hash = some p ∧
        p.number + 1 = h.number := by
    intro k h hk
    simp [get_header, get] at hk
  have hhead : 0 < (IndexedHeader.mk (Header.mk [] 0 0 0) []).number →
      ∃ p, get_header (fun _ _ => none)
          (IndexedHeader.mk (Header.mk [] 0 0 0) []).parent_hash = some p ∧
        p.number + 1 = (IndexedHeader.mk (Header.mk [] 0 0 0) []).number := by
    intro hpos
    exact absurd hpos (by decide)
  exact ⟨hclosed, hhead, by decide,
    headers_iter_spec (fun _ _ => none) (IndexedHeader.mk (Header.mk [] 0 0 0) [])
      hclosed hhead 1 (by decide)⟩

theorem avlUpdate_none_iff (t : AvlM) (k : H256) (idx : Nat) :
    avlUpdate t k idx = none ↔
      avlLookup t k = none ∨
        ∃ m, avlLookup t k = some m ∧ m.getD idx false = false := by
  induction t with
  | nil => simp [avlUpdate, avlLookup]
  | cons e t ih =>
    by_cases he : e.1 = k
    · cases hb : e.2.getD idx false with
      | true => simp [avlUpdate, avlLookup, he, hb]
      | false => simp [avlUpdate, avlLookup, he, hb]
    · simp [avlUpdate, avlLookup, he, ih]

theorem processInputs_none_iff (ins : List OutPoint) :
    ∀ t : AvlM, processInputs t ins = none ↔
      ∃ ipre op isuf, ins = ipre ++ op :: isuf ∧
        ∃ t2, processInputs t ipre = some t2 ∧
          avlUpdate t2 op.hash op.index = none := by
  induction ins with
  | nil =>
    intro t
    constructor
    · intro h
      rw [processInputs] at h
      exact absurd h (by simp)
    · rintro ⟨ipre, op, isuf, habs, -⟩
      exact absurd habs (by simp)
  | cons op rest ih =>
    intro t
    cases hu : avlUpdate t op.hash op.index with
    | none =>
      constructor
      · intro _
        exact ⟨[], op, rest, rfl, t, by rw [processInputs], hu⟩
      · intro _
        rw [processInputs, hu]
    | some t2 =>
      have hstep : processInputs t (op :: rest) = processInputs t2 rest := by
        rw [processInputs, hu]
      rw [hstep, ih t2]
      constructor
      · rintro ⟨ipre, op2, isuf, rfl, t3, hpre, hup⟩
        refine ⟨op :: ipre, op2, isuf, rfl, t3, ?_, hup⟩
        rw [processInputs, hu]
        exact hpre
      · rintro ⟨ipre, op2, isuf, heq, t3, hpre, hup⟩
        cases ipre with
        | nil =>
          simp only [List.nil_append, List.cons.injEq] at heq
          obtain ⟨rfl, rfl⟩ := heq
          have ht3 : t3 = t := by
            rw [processInputs] at hpre
            exact (Option.some.inj hpre).symm
          subst ht3
          rw [hu] at hup
          exact absurd hup (by simp)
        | cons op3 ipre2 =>
          simp only [List.cons_append, List.cons.injEq] at heq
          obtain ⟨rfl, rfl⟩ := heq
          have hpre2 : processInputs t2 ipre2 = some t3 := by
            rw [processInputs, hu] at hpre
            exact hpre
          exact ⟨ipre2, op2, isuf, rfl, t3, hpre2, hup⟩

theorem deltaStep_none_iff (t : AvlM) (d : List OutPoint × List OutPoint) :
    deltaStep t d = none ↔
      processInputs t d.1 = none ∨
        ∃ t2, processInputs t d.1 = some t2 ∧
          ∃ o os, d.2 = o :: os ∧ (avlLookup t2 o.hash).isSome = true := by
  obtain ⟨ins, outs⟩ := d
  cases hp : processInputs t (ins, outs).1 with
  | none => simp [deltaStep, hp]
  | some t2 =>
    cases outs with
    | nil => simp [deltaStep, hp]
    | cons o os =>
      cases hl : avlLookup t2 o.hash with
      | none => simp [deltaStep, avlInsert, hp, hl]
      | some m => simp [deltaStep, avlInsert, hp, hl]

theorem processCells_none_iff (cells : List (List OutPoint × List OutPoint)) :
    ∀ t : AvlM, processCells t cells = none ↔
      ∃ pre d suf, cells = pre ++ d :: suf ∧
        ∃ t1, processCells t pre = some t1 ∧ deltaStep t1 d = none := by
  induction cells with
  | nil =>
    intro t
    constructor
    · intro h
      rw [processCells] at h
      exact absurd h (by simp)
    · rintro ⟨pre, d, suf, habs, -⟩
      exact absurd habs (by simp)
  | cons d0 rest ih =>
    intro t
    cases hd : deltaStep t d0 with
    | none =>
      constructor
      · intro _
        exact ⟨[], d0, rest, rfl, t, by rw [processCells], hd⟩
      · intro _
        rw [processCells, hd]
    | some t2 =>
      have hstep : processCells t (d0 :: rest) = processCells t2 rest := by
        rw [processCells, hd]
      rw [hstep, ih t2]
      constructor
      · rintro ⟨pre, d, suf, rfl, t3, hpre, hds⟩
        refine ⟨d0 :: pre, d, suf, rfl, t3, ?_, hds⟩
        rw [processCells, hd]
        exact hpre
      · rintro ⟨pre, d, suf, heq, t3, hpre, hds⟩
        cases pre with
        | nil =>
          simp only [List.nil_append, List.cons.injEq] at heq
          obtain ⟨rfl, rfl⟩ := heq
          have ht3 : t3 = t := by
            rw [processCells] at hpre
            exact (Option.some.inj hpre).symm
          subst ht3
          rw [hd] at hds
          exact absurd hds (by simp)
        | cons d1 pre2 =>
          simp only [List.cons_append, List.cons.injEq] at heq
          obtain ⟨rfl, rfl⟩ := heq
          have hpre2 : processCells t2 pre2 = some t3 := by
            rw [processCells, hd] at hpre
            exact hpre
          exact ⟨pre2, d, suf, rfl, t3, hpre2, hds⟩

/-- C2: update_transaction_meta returns none iff, processing deltas in
order with all of a delta's input spends applied before its output
insertion, some input spend meets an absent key or an already-clear bit,
or some output insertion meets an already-bound txid; otherwise it returns
the committed root after appending the commit to the batch. -/
theorem update_transaction_meta_none_iff (t0 : AvlM) (batch : Batch)
    (cells : List (List OutPoint × List OutPoint)) :
    ((update_transaction_meta t0 batch cells).1 = none ↔
      ∃ pre d suf, cells = pre ++ d :: suf ∧
        ∃ t1, processCells t0 pre = some t1 ∧
          ((∃ ipre op isuf, d.1 = ipre ++ op :: isuf ∧
              ∃ t2, processInputs t1 ipre = some t2 ∧
                (avlLookup t2 op.hash = none ∨
                  ∃ m, avlLookup t2 op.hash = some m ∧
                    m.getD op.index false = false)) ∨
            ∃ t2, processInputs t1 d.1 = some t2 ∧
              ∃ o os, d.2 = o :: os ∧ (avlLookup t2 o.hash).isSome = true)) ∧
    (∀ tf, processCells t0 cells = some tf →
      update_transaction_meta t0 batch cells
        = (some (commitHash tf), batch ++ commitEntries tf)) := by
  constructor
  · have h0 : (update_transaction_meta t0 batch cells).1 = none ↔
        processCells t0 cells = none := by
      unfold update_transaction_meta
      cases processCells t0 cells <;> simp
    rw [h0, processCells_none_iff]
    apply exists_congr
    intro pre
    apply exists_congr
    intro d
    apply exists_congr
    intro suf
    apply and_congr_right
    intro _
    apply exists_congr
    intro t1
    apply and_congr_right
    intro _
    rw [deltaStep_none_iff]
    apply or_congr
    · rw [processInputs_none_iff]
      apply exists_congr
      intro ipre
      apply exists_congr
      intro op
      apply exists_congr
      intro isuf
      apply and_congr_right
      intro _
      apply exists_congr
      intro t2
      apply and_congr_right
      intro _
      rw [avlUpdate_none_iff]
    · exact Iff.rfl
  · intro tf htf
    unfold update_transaction_meta
    rw [htf]

/-- Concrete instantiation of the C2 theorem: one delta creating a fresh
transaction with two outputs commits successfully. -/
theorem update_transaction_meta_none_iff_witness :
    processCells [] [(([] : List OutPoint), [OutPoint.mk [7] 0, OutPoint.mk [7] 1])]
        = some [([7], TransactionMeta.new 2)] ∧
    update_transaction_meta [] []
        [(([] : List OutPoint), [OutPoint.mk [7] 0, OutPoint.mk [7] 1])]
      = (some (commitHash [([7], TransactionMeta.new 2)]),
          [] ++ commitEntries [([7], TransactionMeta.new 2)]) :=
  ⟨by decide,
    (update_transaction_meta_none_iff [] [] _).2 [([7], TransactionMeta.new 2)]
      (by decide)⟩

end Store
